import Mathlib

/-!
Verification development for the descriptor-disambiguation visual-localization
trainer (`src/trainer.py`).  The relevant numeric routines are embedded
shallowly: descriptors become lists of rationals (exact arithmetic standing in
for numpy float arrays), the per-image correspondence recovery, descriptor
fusion, codebook accumulation, evaluation reporting and median aggregation are
translated function by function from the source.  Machine nearest-neighbour
queries (pykdtree) are modelled by an exact argmin over squared pixel
distances; the library compares the Euclidean distance against the threshold
5, which is equivalent to comparing the squared distance against 25.
-/

namespace DD

/-- A descriptor row: a fixed-length numeric vector (numpy 1-d array),
embedded as a list of rationals. -/
abbrev Desc := List ℚ

/-- Componentwise addition of two numpy rows (broadcasting `+`). -/
def vadd (a b : Desc) : Desc := List.zipWith (· + ·) a b

/-- Scalar multiplication of a numpy row. -/
def vsmul (c : ℚ) (v : Desc) : Desc := v.map (fun x => c * x)

/-- Embeds `combine_descriptors` (trainer.py lines 46-51), per descriptor row:
`lambda_value_ * local_desc + (1 - lambda_value_) * global_desc[: local_desc.shape[1]]`.
In the source `local_desc` is a 2-d array applied rowwise by numpy
broadcasting and `shape[1]` is the common row length, so the rowwise semantics
uses the row's own length. -/
def combine_descriptors (local_desc global_desc : Desc) (lambda_value_ : ℚ) : Desc :=
  vadd (vsmul lambda_value_ local_desc)
    (vsmul (1 - lambda_value_) (global_desc.take local_desc.length))

/-- Embeds the query-time fusion hard-coded in `SevenScenesTrainer.evaluate`
(trainer.py lines 795-797):
`descriptors = 0.5 * (descriptors + image_descriptor[: descriptors.shape[1]])`,
per descriptor row. -/
def sevenScenesQueryFusion (descriptors image_descriptor : Desc) : Desc :=
  vsmul (1 / 2) (vadd descriptors (image_descriptor.take descriptors.length))

/-- Embeds the fusion step of `BaseTrainer.process_descriptor` (trainer.py
lines 317-334), per descriptor row.  The optional snap of the query image
descriptor to its nearest training image descriptor happens before this step;
`image_descriptor` stands for the (possibly snapped) global descriptor. -/
def process_descriptor (using_global_descriptors : Bool) (descriptors image_descriptor : Desc)
    (lambda_val : ℚ) : Desc :=
  if using_global_descriptors then
    combine_descriptors descriptors image_descriptor lambda_val
  else descriptors

/-- Squared Euclidean pixel distance between two 2-d pixel coordinates. -/
def sqDist (p q : ℚ × ℚ) : ℚ := (p.1 - q.1) ^ 2 + (p.2 - q.2) ^ 2

/-- Worker for the nearest-neighbour query: scans the keypoints keeping the
first index attaining the smallest squared distance (strict `<` update, so
ties keep the earlier index), threading the running best through `best`. -/
def kdQueryAux (p : ℚ × ℚ) : List (ℚ × ℚ) → ℕ → Option (ℚ × ℕ) → Option (ℚ × ℕ)
  | [], _, best => best
  | k :: ks, i, best =>
    let d := sqDist p k
    let best2 :=
      match best with
      | none => some (d, i)
      | some (bd, bi) => if d < bd then some (d, i) else some (bd, bi)
    kdQueryAux p ks (i + 1) best2

/-- Models `KDTree(keypoints).query(p)` (pykdtree, trainer.py lines 23-24) as
an exact nearest-neighbour search returning the squared distance and the index
of the nearest keypoint.  The source library works on the Euclidean distance;
we keep squares to stay in ℚ.  On an empty keypoint list the library's
behaviour is not defined by this repository and the model returns `none`;
every theorem below assumes a non-empty keypoint list. -/
def kdQuery (keypoints : List (ℚ × ℚ)) (p : ℚ × ℚ) : Option (ℚ × ℕ) :=
  kdQueryAux p keypoints 0 none

/-- Boolean-mask selection, numpy `arr[mask]`. -/
def boolMask {α : Type} (l : List α) (m : List Bool) : List α :=
  (l.zip m).filterMap (fun p => if p.2 then some p.1 else none)

/-- Embeds `retrieve_pid` (trainer.py lines 22-27): query the nearest detected
keypoint for every ground-truth projection, accept when the pixel distance is
below 5 (`dis < 5`, i.e. squared distance `< 25`), and return
`(pid_list[mask], mask, ind)`.  The `none` branches are unreachable for
non-empty keypoint lists. -/
def retrieve_pid (pid_list : List ℕ) (uv_gt : List (ℚ × ℚ)) (keypoints : List (ℚ × ℚ)) :
    List ℕ × List Bool × List ℕ :=
  let dis_ind := uv_gt.map (fun p => kdQuery keypoints p)
  let mask := dis_ind.map (fun r =>
    match r with
    | some di => decide (di.1 < 25)
    | none => false)
  let ind := dis_ind.map (fun r =>
    match r with
    | some di => di.2
    | none => keypoints.length)
  (boolMask pid_list mask, mask, ind)

/-- Index of the first occurrence of `v` in `arr` (equals `arr.length` when
`v` is absent).  This is what `np.unique(..., return_index=True)` reports for
each unique value. -/
def firstOccurrence (arr : List ℕ) (v : ℕ) : ℕ :=
  match arr with
  | [] => 0
  | a :: rest => if a = v then 0 else firstOccurrence rest v + 1

/-- Embeds `np.unique(arr, return_index=True)` (trainer.py line 273): the
sorted list of distinct values together with, for each value, the index of its
first occurrence in `arr`. -/
def uniqueReturnIndex (arr : List ℕ) : List ℕ × List ℕ :=
  let vals := (arr.dedup).insertionSort (· ≤ ·)
  (vals, vals.map (fun v => firstOccurrence arr v))

/-- The deduplicated `(pointId, descriptor)` pairs an image contributes to the
codebook accumulation (trainer.py lines 273-288 before fusion): with
`(idx_arr, ind2) = np.unique(ind[mask], return_index=True)`, the pairs are
`zip(selected_pid[ind2], descriptors[idx_arr])`.  `maskedInd` is `ind[mask]`
and `selected_pid` is `pid_list[mask]`; all indices are in range in the source
context, `getD` merely supplies a junk default. -/
def dedupPairs (selected_pid maskedInd : List ℕ) (descriptors : List Desc) :
    List (ℕ × Desc) :=
  let u := uniqueReturnIndex maskedInd
  List.zip (u.2.map (fun t => selected_pid.getD t 0))
    (u.1.map (fun k => descriptors.getD k []))

/-- One `(pointId, fused descriptor)` pair fed to the accumulation loop. -/
abbrev Contribution := ℕ × Desc

/-- The fused descriptors contributed for one `pointId`, in contribution
order. -/
def contributionsOf (pid : ℕ) (cs : List Contribution) : List Desc :=
  (cs.filter (fun c => decide (c.1 = pid))).map (fun c => c.2)

/-- State of the accumulation loop of `BaseTrainer.collect_descriptors`
(trainer.py lines 252-288): `order` is the dense allocation order (so
`pid2ind[p]` is the position of `p` in `order` and `index_for_array` is
`order.length - 1`); `sums` holds the row `pid2mean_desc[pid2ind[p]]` keyed
directly by `p` (legitimate since `pid2ind` is injective); `counts` likewise
holds `pid2count[pid2ind[p]]`. -/
structure AccState where
  order : List ℕ
  sums : ℕ → Desc
  counts : ℕ → ℕ

/-- One iteration of the accumulation loop (trainer.py lines 282-288):
allocate a dense index on first sight, then add the fused descriptor into the
point's running sum and bump its count. -/
def accStep (st : AccState) (c : Contribution) : AccState :=
  let st1 := if c.1 ∈ st.order then st else { st with order := st.order ++ [c.1] }
  { st1 with
    sums := fun p => if p = c.1 then vadd (st1.sums c.1) c.2 else st1.sums p
    counts := fun p => if p = c.1 then st1.counts c.1 + 1 else st1.counts p }

/-- Initial accumulation state: `pid2mean_desc = np.zeros((n, D))`,
`pid2count = np.zeros(n)`, empty `pid2ind` (trainer.py lines 252-258). -/
def accInit (D : ℕ) : AccState :=
  { order := [], sums := fun _ => List.replicate D 0, counts := fun _ => 0 }

/-- Runs the accumulation loop over a flattened list of contributions. -/
def accRun (D : ℕ) (cs : List Contribution) : AccState :=
  cs.foldl accStep (accInit D)

/-- The per-point finalized mean as stored in the (untruncated) codebook row
of `p`: `pid2mean_desc[pid2ind[p]] / pid2count[pid2ind[p]]` (componentwise
division, trainer.py line 292). -/
def storedMean (D : ℕ) (cs : List Contribution) (p : ℕ) : Desc :=
  ((accRun D cs).sums p).map (fun x => x / ((accRun D cs).counts p : ℚ))

/-- The finished codebook array produced by
`pid2mean_desc[:index_for_array, :] / pid2count[:index_for_array].reshape(-1, 1)`
(trainer.py lines 292-294, identically lines 532-534 of
`RobotCarTrainer.collect_descriptors`): after `n` distinct pointIds,
`index_for_array = n - 1`, so the slice keeps rows `0 .. n-2` only.  Row `i`
of the slice belongs to the `i`-th allocated pointId.  (The degenerate run
with zero allocated points, where numpy's `[:-1]` slicing applies, is outside
the claims and not modelled.) -/
def finishedCodebook (D : ℕ) (cs : List Contribution) : List Desc :=
  let st := accRun D cs
  (st.order.take (st.order.length - 1)).map
    (fun p => (st.sums p).map (fun x => x / (st.counts p : ℚ)))

/-- Specification-side arithmetic mean of a list of descriptors, following
the spec's words: sum of the contributed descriptors divided by their
count. -/
def arithMean (D : ℕ) (l : List Desc) : Desc :=
  (l.foldl vadd (List.replicate D 0)).map (fun x => x / (l.length : ℚ))

/-- One iteration of the `CambridgeLandmarksTrainer.collect_descriptors`
accumulation (trainer.py lines 851-857): the first descriptor for a pointId is
stored as-is; each later one replaces the entry by
`0.5 * (pid2descriptors[pid] + selected_descriptors[idx])`. -/
def cambridgeStep (m : ℕ → Option Desc) (c : Contribution) : ℕ → Option Desc :=
  fun p =>
    if p = c.1 then
      match m c.1 with
      | none => some c.2
      | some d => some (vsmul (1 / 2) (vadd d c.2))
    else m p

/-- Runs the CambridgeLandmarksTrainer accumulation (`pid2descriptors`) over a
flattened list of contributions; the resulting map is what the trainer copies
into its `pid2mean_desc` array (trainer.py lines 862-870). -/
def cambridgeRun (cs : List Contribution) : ℕ → Option Desc :=
  cs.foldl cambridgeStep (fun _ => none)

/-- The per-pointId value the Cambridge step function folds to: the iterated
halving average. -/
def halvingFold (acc : Option Desc) (d : Desc) : Option Desc :=
  match acc with
  | none => some d
  | some v => some (vsmul (1 / 2) (vadd v d))

/-- A training example as seen by the collection loop: the image identifier
(`example[1]`, abstracted to a number), the visible pointIds (`example[3]`)
and their ground-truth projections (`example[-1]`). -/
structure TrainExample where
  name : ℕ
  pids : List ℕ
  uv : List (ℚ × ℚ)

/-- The `(pointId, fused descriptor)` pairs one training image contributes
(trainer.py lines 270-288): correspondence recovery via `retrieve_pid`,
deduplication by keypoint index via `np.unique`, selection of the keypoint
descriptors, and optional fusion with the image's global descriptor. -/
def imagePairs (using_global_descriptors : Bool) (image2desc : ℕ → Desc) (lambda_val : ℚ)
    (ex : TrainExample) (keypoints : List (ℚ × ℚ)) (descriptors : List Desc) :
    List Contribution :=
  let r := retrieve_pid ex.pids ex.uv keypoints
  let maskedInd := boolMask r.2.2 r.2.1
  let u := uniqueReturnIndex maskedInd
  let selected_descriptors := u.1.map (fun k => descriptors.getD k [])
  let fused :=
    if using_global_descriptors then
      selected_descriptors.map
        (fun d => combine_descriptors d (image2desc ex.name) lambda_val)
    else selected_descriptors
  List.zip (u.2.map (fun t => r.1.getD t 0)) fused

/-- The image-iteration skeleton of `BaseTrainer.collect_descriptors`
(trainer.py lines 260-288): `None` examples are skipped (`continue`); an
image whose stored local features cannot be read (`KeyError` on the h5 file)
prints a message and calls `sys.exit()`, modelled as an `Except.error`
carrying the failing image's name and aborting the whole run; otherwise the
image's pairs are appended to the flattened contribution list. -/
def collectLoop (features : ℕ → Option (List (ℚ × ℚ) × List Desc))
    (pairsOf : TrainExample → List (ℚ × ℚ) → List Desc → List Contribution) :
    List (Option TrainExample) → List Contribution → Except ℕ (List Contribution)
  | [], acc => Except.ok acc
  | none :: rest, acc => collectLoop features pairsOf rest acc
  | some ex :: rest, acc =>
    match features ex.name with
    | none => Except.error ex.name
    | some (kps, descs) => collectLoop features pairsOf rest (acc ++ pairsOf ex kps descs)

/-- Embeds `BaseTrainer.collect_descriptors` end to end: iterate the dataset
accumulating contributions (aborting on a missing-features image) and
finalize into the truncated mean array together with the allocation order
(`pid2ind`). -/
def collect_descriptors (D : ℕ) (using_global_descriptors : Bool) (image2desc : ℕ → Desc)
    (lambda_val : ℚ) (features : ℕ → Option (List (ℚ × ℚ) × List Desc))
    (dataset : List (Option TrainExample)) : Except ℕ (List Desc × List ℕ) :=
  match collectLoop features (imagePairs using_global_descriptors image2desc lambda_val)
      dataset [] with
  | Except.error n => Except.error n
  | Except.ok cs => Except.ok (finishedCodebook D cs, (accRun D cs).order)

/-- The per-image outcome an evaluation run can report according to the spec:
a pose line, an insufficient-correspondences marker, or a
localization-failed marker.  The pose payload is abstract. -/
inductive EvalReport (P : Type) where
  | poseLine : P → EvalReport P
  | insufficientCorrespondences : EvalReport P
  | localizationFailed : EvalReport P
deriving DecidableEq

/-- The reporting skeleton of `CMUTrainer.evaluate` (trainer.py lines
695-739; `BaseTrainer.evaluate`, lines 391-424, is identical except that it
has no `None` check): each `None` example is skipped, every other example has
its 2D-3D correspondences passed to `poselib.estimate_absolute_pose`
unconditionally — there is no branch on the correspondence count and no
failure handler — and exactly one pose line is written for it.  The external
pose solver is modelled as a total function `solve` from the correspondence
list to a pose payload. -/
def cmuEvaluateLoop {P : Type} (solve : List (ℚ × ℚ) → P)
    (dataset : List (Option (List (ℚ × ℚ)))) : List (EvalReport P) :=
  dataset.filterMap (fun ex => ex.map (fun corrs => EvalReport.poseLine (solve corrs)))

/-- Embeds the median aggregation of `SevenScenesTrainer.evaluate`
(trainer.py lines 819-824) and `CambridgeLandmarksTrainer.evaluate` (lines
976-981): sort the per-frame error list ascending in place
(`tErrs.sort()`), set `median_idx = total_frames // 2` with `total_frames`
the list length, and report the element at that index. -/
def reportedMedian (errs : List ℚ) : ℚ :=
  (errs.insertionSort (· ≤ ·)).getD (errs.length / 2) 0

/-! General list helpers. -/

lemma getD_map_lt {α β : Type} (f : α → β) (l : List α) (d0 : α) (d1 : β) :
    ∀ i, i < l.length → (l.map f).getD i d1 = f (l.getD i d0) := by
  induction l with
  | nil => intro i hi; simp at hi
  | cons a l ih =>
    intro i hi
    cases i with
    | zero => simp
    | succ j =>
      simp only [List.map_cons, List.getD_cons_succ]
      exact ih j (by simpa using hi)

lemma getD_zip_lt {α β : Type} (l1 : List α) (l2 : List β) (d1 : α) (d2 : β) :
    ∀ i, i < l1.length → i < l2.length →
      (List.zip l1 l2).getD i (d1, d2) = (l1.getD i d1, l2.getD i d2) := by
  induction l1 generalizing l2 with
  | nil => intro i hi; simp at hi
  | cons a l1 ih =>
    intro i h1 h2
    cases l2 with
    | nil => simp at h2
    | cons b l2 =>
      cases i with
      | zero => simp [List.zip_cons_cons]
      | succ j =>
        simp only [List.zip_cons_cons, List.getD_cons_succ]
        exact ih l2 j (by simpa using h1) (by simpa using h2)

lemma getD_mem_of_lt {α : Type} (l : List α) (d : α) :
    ∀ i, i < l.length → l.getD i d ∈ l := by
  induction l with
  | nil => intro i hi; simp at hi
  | cons a l ih =>
    intro i hi
    cases i with
    | zero => simp
    | succ j =>
      simp only [List.getD_cons_succ]
      exact List.mem_cons_of_mem a (ih j (by simpa using hi))

/-! Properties of descriptor fusion (`combine_descriptors`). -/

lemma combine_descriptors_cons (a b : ℚ) (l g : Desc) (lam : ℚ) :
    combine_descriptors (a :: l) (b :: g) lam =
      (lam * a + (1 - lam) * b) :: combine_descriptors l g lam := rfl

lemma combine_length (l : Desc) : ∀ g : Desc, l.length ≤ g.length →
    ∀ lam, (combine_descriptors l g lam).length = l.length := by
  induction l with
  | nil => intro g _ lam; rfl
  | cons a l ih =>
    intro g hg lam
    cases g with
    | nil => simp at hg
    | cons b g =>
      simp only [combine_descriptors_cons, List.length_cons]
      exact congrArg Nat.succ (ih g (by simpa using hg) lam)

lemma combine_getD (l : Desc) : ∀ (g : Desc) (lam : ℚ) (i : ℕ), i < l.length →
    l.length ≤ g.length →
    (combine_descriptors l g lam).getD i 0 = lam * l.getD i 0 + (1 - lam) * g.getD i 0 := by
  induction l with
  | nil => intro g lam i hi _; simp at hi
  | cons a l ih =>
    intro g lam i hi hg
    cases g with
    | nil => simp at hg
    | cons b g =>
      cases i with
      | zero => simp [combine_descriptors_cons]
      | succ j =>
        simp only [combine_descriptors_cons, List.getD_cons_succ]
        exact ih g lam j (by simpa using hi) (by simpa using hg)

lemma combine_one (l : Desc) : ∀ g : Desc, l.length ≤ g.length →
    combine_descriptors l g 1 = l := by
  induction l with
  | nil => intro g _; rfl
  | cons a l ih =>
    intro g hg
    cases g with
    | nil => simp at hg
    | cons b g =>
      rw [combine_descriptors_cons, ih g (by simpa using hg)]
      norm_num

lemma combine_zero (l : Desc) : ∀ g : Desc, combine_descriptors l g 0 = g.take l.length := by
  induction l with
  | nil => intro g; rfl
  | cons a l ih =>
    intro g
    cases g with
    | nil => rfl
    | cons b g =>
      rw [combine_descriptors_cons, ih g]
      norm_num

/-- C3.  For all local descriptors of dimension `Dl`, global descriptors of
dimension `Dg ≥ Dl` and weights `λ ∈ [0,1]`, `combine_descriptors` returns
`λ·local + (1−λ)·global[0:Dl]` componentwise; with `λ = 1` it returns the
local descriptor exactly and with `λ = 0` the first `Dl` entries of the
global descriptor exactly. -/
theorem fusion_formula (local_desc global_desc : Desc) (lambda_value_ : ℚ)
    (hD : local_desc.length ≤ global_desc.length)
    (h0 : 0 ≤ lambda_value_) (h1 : lambda_value_ ≤ 1) :
    (combine_descriptors local_desc global_desc lambda_value_).length = local_desc.length
    ∧ (∀ i, i < local_desc.length →
        (combine_descriptors local_desc global_desc lambda_value_).getD i 0 =
          lambda_value_ * local_desc.getD i 0 + (1 - lambda_value_) * global_desc.getD i 0)
    ∧ combine_descriptors local_desc global_desc 1 = local_desc
    ∧ combine_descriptors local_desc global_desc 0 = global_desc.take local_desc.length :=
  ⟨combine_length local_desc global_desc hD lambda_value_,
   fun i hi => combine_getD local_desc global_desc lambda_value_ i hi hD,
   combine_one local_desc global_desc hD,
   combine_zero local_desc global_desc⟩

/-- Witness for C3 at `local = [1,2]`, `global = [10,20,30]`, `λ = 1/2`. -/
theorem fusion_formula_witness :
    (combine_descriptors [1, 2] [10, 20, 30] (1 / 2)).length = 2
    ∧ (combine_descriptors [1, 2] [10, 20, 30] (1 / 2)).getD 0 0 =
        (1 / 2) * ([(1 : ℚ), 2].getD 0 0) + (1 - 1 / 2) * ([(10 : ℚ), 20, 30].getD 0 0)
    ∧ combine_descriptors [(1 : ℚ), 2] [10, 20, 30] 1 = [1, 2]
    ∧ combine_descriptors [(1 : ℚ), 2] [10, 20, 30] 0 = [(10 : ℚ), 20, 30].take 2 := by
  have h := fusion_formula [1, 2] [10, 20, 30] (1 / 2) (by norm_num) (by norm_num) (by norm_num)
  exact ⟨h.1, h.2.1 0 (by norm_num), h.2.2.1, h.2.2.2⟩

/-! Lambda usage at training time versus SevenScenes query time. -/

lemma sevenScenesQueryFusion_cons (a b : ℚ) (d g : Desc) :
    sevenScenesQueryFusion (a :: d) (b :: g) =
      (1 / 2 * (a + b)) :: sevenScenesQueryFusion d g := rfl

/-- C10 counterexample.  In a run configured with `λ = 1` (which must disable
global fusion), `SevenScenesTrainer.evaluate` still fuses query descriptors
with the hard-coded weight `0.5`: on `local = [1]`, `global = [0]` it returns
`[1/2]`, while every other fusion site (`combine_descriptors` with the
configured `λ = 1`) returns `[1]`. -/
theorem seven_scenes_fixed_half_counterexample :
    sevenScenesQueryFusion [1] [0] = [1 / 2]
    ∧ combine_descriptors [1] [0] 1 = [1]
    ∧ sevenScenesQueryFusion [1] [0] ≠ combine_descriptors [1] [0] 1 := by
  norm_num [sevenScenesQueryFusion, combine_descriptors, vadd, vsmul]

/-- C10 amended.  The shared query path `process_descriptor` and (by the same
code path) training-time accumulation fuse with the configured `λ`, but the
query-time fusion inlined in `SevenScenesTrainer.evaluate` always blends with
the fixed weight `0.5`, i.e. it coincides with `combine_descriptors` at
`λ = 1/2` for every input, not at the configured `λ`. -/
theorem fusion_weight_usage (d g : Desc) (lam : ℚ) :
    process_descriptor true d g lam = combine_descriptors d g lam
    ∧ sevenScenesQueryFusion d g = combine_descriptors d g (1 / 2) := by
  refine ⟨rfl, ?_⟩
  induction d generalizing g with
  | nil => rfl
  | cons a d ih =>
    cases g with
    | nil => rfl
    | cons b g =>
      rw [sevenScenesQueryFusion_cons, combine_descriptors_cons, ih g]
      norm_num
      ring

/-! Codebook accumulation: running sums/counts versus per-point
contributions. -/

lemma contributionsOf_cons (p : ℕ) (c : Contribution) (cs : List Contribution) :
    contributionsOf p (c :: cs) =
      if c.1 = p then c.2 :: contributionsOf p cs else contributionsOf p cs := by
  by_cases h : c.1 = p <;> simp [contributionsOf, List.filter_cons, h]

lemma accStep_sums (st : AccState) (c : Contribution) (p : ℕ) :
    (accStep st c).sums p = if p = c.1 then vadd (st.sums p) c.2 else st.sums p := by
  by_cases h : p = c.1 <;> by_cases h2 : c.1 ∈ st.order <;> simp [accStep, h, h2]

lemma accStep_counts (st : AccState) (c : Contribution) (p : ℕ) :
    (accStep st c).counts p = if p = c.1 then st.counts p + 1 else st.counts p := by
  by_cases h : p = c.1 <;> by_cases h2 : c.1 ∈ st.order <;> simp [accStep, h, h2]

lemma foldl_accStep_sums (p : ℕ) :
    ∀ (cs : List Contribution) (st : AccState),
      (cs.foldl accStep st).sums p = (contributionsOf p cs).foldl vadd (st.sums p) := by
  intro cs
  induction cs with
  | nil => intro st; rfl
  | cons c cs ih =>
    intro st
    rw [List.foldl_cons, ih (accStep st c), accStep_sums, contributionsOf_cons]
    by_cases h : c.1 = p
    · simp [h]
    · rw [if_neg h, if_neg (fun hpc : p = c.1 => h hpc.symm)]

lemma foldl_accStep_counts (p : ℕ) :
    ∀ (cs : List Contribution) (st : AccState),
      (cs.foldl accStep st).counts p = st.counts p + (contributionsOf p cs).length := by
  intro cs
  induction cs with
  | nil => intro st; rfl
  | cons c cs ih =>
    intro st
    rw [List.foldl_cons, ih (accStep st c), accStep_counts, contributionsOf_cons]
    by_cases h : c.1 = p
    · simp [h]; omega
    · rw [if_neg h, if_neg (fun hpc : p = c.1 => h hpc.symm)]

lemma accRun_sums (D : ℕ) (cs : List Contribution) (p : ℕ) :
    (accRun D cs).sums p = (contributionsOf p cs).foldl vadd (List.replicate D 0) :=
  foldl_accStep_sums p cs (accInit D)

lemma accRun_counts (D : ℕ) (cs : List Contribution) (p : ℕ) :
    (accRun D cs).counts p = (contributionsOf p cs).length := by
  have h := foldl_accStep_counts p cs (accInit D)
  simpa [accInit] using h

lemma cambridgeStep_apply (m : ℕ → Option Desc) (c : Contribution) (p : ℕ) :
    cambridgeStep m c p = if p = c.1 then halvingFold (m p) c.2 else m p := by
  by_cases h : p = c.1
  · subst h
    cases hm : m c.1 <;> simp [cambridgeStep, halvingFold, hm]
  · simp [cambridgeStep, h]

lemma foldl_cambridgeStep (p : ℕ) :
    ∀ (cs : List Contribution) (m : ℕ → Option Desc),
      (cs.foldl cambridgeStep m) p = (contributionsOf p cs).foldl halvingFold (m p) := by
  intro cs
  induction cs with
  | nil => intro m; rfl
  | cons c cs ih =>
    intro m
    rw [List.foldl_cons, ih (cambridgeStep m c), cambridgeStep_apply, contributionsOf_cons]
    by_cases h : c.1 = p
    · simp [h]
    · rw [if_neg h, if_neg (fun hpc : p = c.1 => h hpc.symm)]

lemma cambridgeRun_eq (cs : List Contribution) (p : ℕ) :
    cambridgeRun cs p = (contributionsOf p cs).foldl halvingFold none :=
  foldl_cambridgeStep p cs (fun _ => none)

lemma vadd_replicate_zero : ∀ d : Desc, vadd (List.replicate d.length 0) d = d := by
  intro d
  induction d with
  | nil => rfl
  | cons a d ih => simp [vadd, List.replicate_succ] at ih ⊢; exact ih

lemma mem_contributionsOf_length (D : ℕ) (cs : List Contribution) (p : ℕ)
    (hlen : ∀ c ∈ cs, (c.2).length = D) :
    ∀ d ∈ contributionsOf p cs, d.length = D := by
  intro d hd
  simp only [contributionsOf, List.mem_map, List.mem_filter] at hd
  obtain ⟨c, ⟨hc, _⟩, hcd⟩ := hd
  rw [← hcd]
  exact hlen c hc

/-- C1 amended.  In `BaseTrainer.collect_descriptors` (and the identical
`RobotCarTrainer` loop) every pointId's count equals the number of fused
descriptors contributed for it, and the stored value `sum / count` equals
their arithmetic mean.  `CambridgeLandmarksTrainer.collect_descriptors`
instead stores the iterated halving average, which coincides with the
arithmetic mean only when the pointId has at most two contributions. -/
theorem codebook_mean_amended (D : ℕ) (cs : List Contribution) (p : ℕ)
    (hlen : ∀ c ∈ cs, (c.2).length = D)
    (hobs : contributionsOf p cs ≠ []) :
    (accRun D cs).counts p = (contributionsOf p cs).length
    ∧ storedMean D cs p = arithMean D (contributionsOf p cs)
    ∧ ((contributionsOf p cs).length ≤ 2 →
        cambridgeRun cs p = some (arithMean D (contributionsOf p cs))) := by
  refine ⟨accRun_counts D cs p, ?_, ?_⟩
  · unfold storedMean arithMean
    rw [accRun_sums, accRun_counts]
  · intro h2
    rw [cambridgeRun_eq]
    have hmem := mem_contributionsOf_length D cs p hlen
    rcases hobs2 : contributionsOf p cs with _ | ⟨d1, _ | ⟨d2, rest⟩⟩
    · exact absurd hobs2 hobs
    · have hd1 : d1.length = D := hmem d1 (by rw [hobs2]; exact List.mem_cons_self d1 [])
      have hb : vadd (List.replicate D 0) d1 = d1 := by
        rw [← hd1]; exact vadd_replicate_zero d1
      simp [arithMean, halvingFold, hb]
    · have hd1 : d1.length = D := hmem d1 (by rw [hobs2]; simp)
      have hb : vadd (List.replicate D 0) d1 = d1 := by
        rw [← hd1]; exact vadd_replicate_zero d1
      have hrest : rest = [] := by
        by_contra hne
        rcases rest with _ | ⟨d3, rest2⟩
        · exact hne rfl
        · rw [hobs2] at h2
          simp only [List.length_cons] at h2
          omega
      subst hrest
      simp only [List.foldl_cons, List.foldl_nil, halvingFold, arithMean, hb,
        List.length_cons, List.length_nil]
      congr 1
      simp only [vsmul]
      refine List.map_congr_left ?_
      intro x _
      norm_num
      ring

/-- C1 counterexample.  With three contributions `[1]`, `[2]`, `[3]` for
pointId 5, `CambridgeLandmarksTrainer` stores `0.5*(0.5*(1+2)+3) = 9/4`,
which differs from the arithmetic mean `2`, so the stored descriptor is not
the arithmetic mean of the contributed descriptors for every trainer. -/
theorem cambridge_mean_counterexample :
    cambridgeRun [(5, [1]), (5, [2]), (5, [3])] 5 = some [9 / 4]
    ∧ arithMean 1 (contributionsOf 5 [(5, [1]), (5, [2]), (5, [3])]) = [2]
    ∧ cambridgeRun [(5, [1]), (5, [2]), (5, [3])] 5
        ≠ some (arithMean 1 (contributionsOf 5 [(5, [1]), (5, [2]), (5, [3])])) := by
  norm_num [cambridgeRun, cambridgeStep, arithMean, contributionsOf, vadd, vsmul, List.foldl]

/-- C1 witness: pointId 5 contributes `[1]` and `[3]` (and pointId 8
contributes once); count is 2, both the Base-style stored mean and the
Cambridge value equal the arithmetic mean. -/
theorem codebook_mean_amended_witness :
    (accRun 1 [(5, [1]), (5, [3]), (8, [7])]).counts 5 =
      (contributionsOf 5 [(5, [1]), (5, [3]), (8, [7])]).length
    ∧ storedMean 1 [(5, [1]), (5, [3]), (8, [7])] 5 =
        arithMean 1 (contributionsOf 5 [(5, [1]), (5, [3]), (8, [7])])
    ∧ cambridgeRun [(5, [1]), (5, [3]), (8, [7])] 5 =
        some (arithMean 1 (contributionsOf 5 [(5, [1]), (5, [3]), (8, [7])])) := by
  have h := codebook_mean_amended 1 [(5, [1]), (5, [3]), (8, [7])] 5
    (by decide) (by decide)
  exact ⟨h.1, h.2.1, h.2.2 (by decide)⟩

/-- C2 (code bug).  After contributions from two distinct pointIds (7 then
9), the allocation order holds both pointIds, yet the finished codebook
array — `pid2mean_desc[:index_for_array]` with `index_for_array = 1` — has a
single row: the last allocated pointId's entry is silently dropped instead
of being finalized, contradicting the claim that every observed pointId gets
exactly one finalized row. -/
theorem finished_codebook_drops_last_point :
    (accRun 1 [(7, [1]), (9, [3])]).order = [7, 9]
    ∧ finishedCodebook 1 [(7, [1]), (9, [3])] = [[1]]
    ∧ (finishedCodebook 1 [(7, [1]), (9, [3])]).length = 1 := by
  norm_num [finishedCodebook, accRun, accStep, accInit, vadd, List.foldl]

/-! Missing local features during codebook collection. -/

/-- C5 counterexample.  A dataset of three readable images whose middle
image's stored local descriptors are missing: `collect_descriptors` aborts
the whole run with that image's identifier (`sys.exit` after the `KeyError`),
so no codebook over the remaining images is produced. -/
theorem missing_descriptor_aborts_run :
    collect_descriptors 1 false (fun _ => []) 1
        (fun n => if n = 2 then none else some ([], []))
        [some ⟨1, [], []⟩, some ⟨2, [], []⟩, some ⟨3, [], []⟩] = Except.error 2 := rfl

/-- C5 amended.  `None` dataset entries are skipped and processing
continues, but an image whose stored local descriptors cannot be read is
fatal: whatever comes after it in the batch, the collection loop stops with
an error naming that image (modelling the `print` + `sys.exit()` at
trainer.py lines 267-269) instead of skipping it. -/
theorem collect_missing_features_fatal
    (features : ℕ → Option (List (ℚ × ℚ) × List Desc))
    (pairsOf : TrainExample → List (ℚ × ℚ) → List Desc → List Contribution)
    (ex : TrainExample) (hex : features ex.name = none) :
    (∀ ds acc, collectLoop features pairsOf (none :: ds) acc = collectLoop features pairsOf ds acc)
    ∧ ∀ pre post acc,
        (∀ e ∈ pre, ∀ x : TrainExample, e = some x → (features x.name).isSome = true) →
        collectLoop features pairsOf (pre ++ some ex :: post) acc = Except.error ex.name := by
  refine ⟨fun ds acc => rfl, ?_⟩
  intro pre
  induction pre with
  | nil =>
    intro post acc _
    simp [collectLoop, hex]
  | cons e pre ih =>
    intro post acc hpre
    cases e with
    | none =>
      rw [List.cons_append]
      exact ih post acc (fun e he x hx => hpre e (List.mem_cons_of_mem _ he) x hx)
    | some x =>
      have hx : (features x.name).isSome = true :=
        hpre (some x) (List.mem_cons_self _ _) x rfl
      obtain ⟨v, hv⟩ := Option.isSome_iff_exists.mp hx
      rw [List.cons_append]
      show collectLoop features pairsOf (some x :: (pre ++ some ex :: post)) acc = _
      rw [show collectLoop features pairsOf (some x :: (pre ++ some ex :: post)) acc =
          collectLoop features pairsOf (pre ++ some ex :: post)
            (acc ++ pairsOf x v.1 v.2) from by simp [collectLoop, hv]]
      exact ih post _ (fun e he y hy => hpre e (List.mem_cons_of_mem _ he) y hy)

/-- C5 witness: with image 2's features missing and image 1 readable, the
loop aborts with error 2, and a `None` entry is skipped. -/
theorem collect_missing_features_fatal_witness :
    collectLoop (fun n => if n = 2 then none else some ([], []))
        (fun _ _ _ => []) ([some ⟨1, [], []⟩] ++ some ⟨2, [], []⟩ :: [some ⟨3, [], []⟩]) []
      = Except.error 2
    ∧ collectLoop (fun n => if n = 2 then none else some ([], []))
        (fun _ _ _ => []) (none :: [some ⟨3, [], []⟩]) []
      = collectLoop (fun n => if n = 2 then none else some ([], []))
        (fun _ _ _ => []) [some ⟨3, [], []⟩] [] := by
  have h := collect_missing_features_fatal (fun n => if n = 2 then none else some ([], []))
    (fun _ _ _ => []) ⟨2, [], []⟩ (by norm_num)
  refine ⟨h.2 [some ⟨1, [], []⟩] [some ⟨3, [], []⟩] [] ?_, h.1 [some ⟨3, [], []⟩] []⟩
  intro e he x hx
  rw [List.mem_singleton] at he
  subst he
  injection hx with hx2
  subst hx2
  norm_num

/-! Evaluation reporting. -/

/-- C4 counterexample.  A query with only two correspondences (fewer than
any minimal absolute-pose solver needs) is still passed to the solver and
reported as a pose line: the evaluation loop has no "insufficient
correspondences" (nor "localization failed") outcome. -/
theorem low_correspondence_reported_as_pose :
    cmuEvaluateLoop (fun _ => (0 : ℚ)) [some [((0 : ℚ), (0 : ℚ)), (1, 1)]]
      = [EvalReport.poseLine 0]
    ∧ EvalReport.poseLine (0 : ℚ) ≠ EvalReport.insufficientCorrespondences
    ∧ EvalReport.poseLine (0 : ℚ) ≠ EvalReport.localizationFailed :=
  ⟨rfl, by simp, by simp⟩

/-- C4 amended.  Every non-`None` test example yields exactly one report
(nothing is silently dropped beyond the explicit `None` skip), and every
report is a pose line obtained by handing the query's correspondences to the
external solver unconditionally — the marker outcomes the spec names are
never produced. -/
theorem evaluate_reports_pose_per_query {P : Type} (solve : List (ℚ × ℚ) → P)
    (ds : List (Option (List (ℚ × ℚ)))) :
    (cmuEvaluateLoop solve ds).length = (ds.filterMap id).length
    ∧ ∀ r ∈ cmuEvaluateLoop solve ds, ∃ corrs, r = EvalReport.poseLine (solve corrs) := by
  induction ds with
  | nil => exact ⟨rfl, by simp [cmuEvaluateLoop]⟩
  | cons e ds ih =>
    cases e with
    | none =>
      refine ⟨?_, ?_⟩
      · simpa [cmuEvaluateLoop, List.filterMap_cons] using ih.1
      · intro r hr
        exact ih.2 r (by simpa [cmuEvaluateLoop, List.filterMap_cons] using hr)
    | some corrs =>
      refine ⟨?_, ?_⟩
      · simpa [cmuEvaluateLoop, List.filterMap_cons] using ih.1
      · intro r hr
        simp only [cmuEvaluateLoop, List.filterMap_cons, Option.map_some] at hr
        rcases List.mem_cons.mp hr with h | h
        · exact ⟨corrs, h⟩
        · exact ih.2 r h

/-- C4 witness at a concrete two-element dataset (one `None`, one query). -/
theorem evaluate_reports_pose_per_query_witness :
    (cmuEvaluateLoop (fun _ => (0 : ℚ)) [none, some [((0 : ℚ), (0 : ℚ))]]).length
      = ([none, some [((0 : ℚ), (0 : ℚ))]].filterMap id).length
    ∧ (cmuEvaluateLoop (fun _ => (0 : ℚ)) [none, some [((0 : ℚ), (0 : ℚ))]]).getD 0
        EvalReport.localizationFailed = EvalReport.poseLine 0 := by
  have h := evaluate_reports_pose_per_query (fun _ => (0 : ℚ)) [none, some [((0 : ℚ), (0 : ℚ))]]
  refine ⟨h.1, ?_⟩
  have hmem : (cmuEvaluateLoop (fun _ => (0 : ℚ)) [none, some [((0 : ℚ), (0 : ℚ))]]).getD 0
      EvalReport.localizationFailed
      ∈ cmuEvaluateLoop (fun _ => (0 : ℚ)) [none, some [((0 : ℚ), (0 : ℚ))]] :=
    getD_mem_of_lt _ _ 0 (by decide)
  obtain ⟨c, hc⟩ := h.2 _ hmem
  exact hc

/-! Median aggregation. -/

/-- C8.  The reported median of a non-empty error list is exactly the
element at index `floor(n/2)` of the ascending sort of the list: for ANY
ascending-sorted permutation `s` of the errors, the code reports
`s[n / 2]`. -/
theorem reported_median_sorted_floor (l s : List ℚ) (hne : l ≠ [])
    (hperm : s.Perm l) (hsort : s.Sorted (· ≤ ·)) :
    reportedMedian l = s.getD (l.length / 2) 0 := by
  have h1 : (l.insertionSort (· ≤ ·)).Perm l := List.perm_insertionSort _ l
  have h2 : (l.insertionSort (· ≤ ·)).Sorted (· ≤ ·) := List.sorted_insertionSort _ l
  have hs : s = l.insertionSort (· ≤ ·) :=
    List.eq_of_perm_of_sorted (hperm.trans h1.symm) hsort h2
  rw [reportedMedian, ← hs]

/-- C8 witness: the even-length list `[1,2,3,4]` reports median `3` (index
`4/2 = 2` of the sorted list), not the averaged `2.5`. -/
theorem reported_median_sorted_floor_witness :
    reportedMedian [1, 2, 3, 4] = 3 ∧ reportedMedian [1, 2, 3, 4] ≠ 5 / 2 := by
  have h := reported_median_sorted_floor [1, 2, 3, 4] [1, 2, 3, 4] (by simp)
    (List.Perm.refl _) (by norm_num [List.sorted_cons])
  constructor
  · rw [h]; norm_num
  · rw [h]; norm_num

/-! Correspondence recovery: nearest-neighbour threshold semantics. -/

lemma kdQueryAux_min (p : ℚ × ℚ) :
    ∀ (ks : List (ℚ × ℚ)) (i : ℕ) (bd : ℚ) (bi : ℕ),
      ∃ d j, kdQueryAux p ks i (some (bd, bi)) = some (d, j)
        ∧ (d = bd ∨ ∃ k ∈ ks, sqDist p k = d)
        ∧ d ≤ bd
        ∧ ∀ k ∈ ks, d ≤ sqDist p k := by
  intro ks
  induction ks with
  | nil =>
    intro i bd bi
    exact ⟨bd, bi, rfl, Or.inl rfl, le_refl bd, by simp⟩
  | cons k0 ks ih =>
    intro i bd bi
    by_cases h : sqDist p k0 < bd
    · have hstep : kdQueryAux p (k0 :: ks) i (some (bd, bi))
          = kdQueryAux p ks (i + 1) (some (sqDist p k0, i)) := by
        show kdQueryAux p ks (i + 1)
            (if sqDist p k0 < bd then some (sqDist p k0, i) else some (bd, bi)) = _
        rw [if_pos h]
      obtain ⟨d, j, hd, hmem, hle, hmin⟩ := ih (i + 1) (sqDist p k0) i
      refine ⟨d, j, hstep.trans hd, ?_, le_trans hle (le_of_lt h), ?_⟩
      · rcases hmem with h1 | ⟨k, hk, he⟩
        · exact Or.inr ⟨k0, List.mem_cons_self _ _, h1.symm⟩
        · exact Or.inr ⟨k, List.mem_cons_of_mem _ hk, he⟩
      · intro k hk
        rcases List.mem_cons.mp hk with rfl | hk2
        · exact hle
        · exact hmin k hk2
    · have hstep : kdQueryAux p (k0 :: ks) i (some (bd, bi))
          = kdQueryAux p ks (i + 1) (some (bd, bi)) := by
        show kdQueryAux p ks (i + 1)
            (if sqDist p k0 < bd then some (sqDist p k0, i) else some (bd, bi)) = _
        rw [if_neg h]
      obtain ⟨d, j, hd, hmem, hle, hmin⟩ := ih (i + 1) bd bi
      refine ⟨d, j, hstep.trans hd, ?_, hle, ?_⟩
      · rcases hmem with h1 | ⟨k, hk, he⟩
        · exact Or.inl h1
        · exact Or.inr ⟨k, List.mem_cons_of_mem _ hk, he⟩
      · intro k hk
        rcases List.mem_cons.mp hk with rfl | hk2
        · exact le_trans hle (not_lt.mp h)
        · exact hmin k hk2

lemma kdQuery_min (keypoints : List (ℚ × ℚ)) (p : ℚ × ℚ) (hk : keypoints ≠ []) :
    ∃ d j, kdQuery keypoints p = some (d, j)
      ∧ (∃ k ∈ keypoints, sqDist p k = d)
      ∧ ∀ k ∈ keypoints, d ≤ sqDist p k := by
  cases keypoints with
  | nil => exact absurd rfl hk
  | cons k0 ks =>
    have hstep : kdQuery (k0 :: ks) p = kdQueryAux p ks 1 (some (sqDist p k0, 0)) := rfl
    obtain ⟨d, j, hd, hmem, hle, hmin⟩ := kdQueryAux_min p ks 1 (sqDist p k0) 0
    refine ⟨d, j, hstep.trans hd, ?_, ?_⟩
    · rcases hmem with h1 | ⟨k, hk2, he⟩
      · exact ⟨k0, List.mem_cons_self _ _, h1.symm⟩
      · exact ⟨k, List.mem_cons_of_mem _ hk2, he⟩
    · intro k hk2
      rcases List.mem_cons.mp hk2 with rfl | h3
      · exact hle
      · exact hmin k h3

/-- C6.  A ground-truth projection is accepted (its mask entry is `true`)
exactly when some detected keypoint lies at squared pixel distance strictly
below `25`, i.e. pixel distance strictly below `5`; in particular the
nearest-keypoint distance decides acceptance with strict `<` semantics. -/
theorem retrieve_pid_threshold_strict (pid_list : List ℕ) (uv_gt keypoints : List (ℚ × ℚ))
    (hk : keypoints ≠ []) (i : ℕ) (hi : i < uv_gt.length) :
    ((retrieve_pid pid_list uv_gt keypoints).2.1.getD i false = true)
    ↔ ∃ k ∈ keypoints, sqDist (uv_gt.getD i (0, 0)) k < 25 := by
  rw [show (retrieve_pid pid_list uv_gt keypoints).2.1
      = (uv_gt.map (fun p => kdQuery keypoints p)).map
          (fun r => match r with
            | some di => decide (di.1 < 25)
            | none => false) from rfl]
  rw [getD_map_lt _ _ none false i (by simpa using hi)]
  rw [getD_map_lt (fun p => kdQuery keypoints p) uv_gt (0, 0) none i hi]
  obtain ⟨d, j, hd, ⟨k0, hk0, hk0d⟩, hmin⟩ := kdQuery_min keypoints (uv_gt.getD i (0, 0)) hk
  rw [hd]
  show decide (d < 25) = true ↔ _
  rw [decide_eq_true_iff]
  constructor
  · intro hlt
    exact ⟨k0, hk0, by rw [hk0d]; exact hlt⟩
  · rintro ⟨k, hkk, hklt⟩
    exact lt_of_le_of_lt (hmin k hkk) hklt

/-- C6 witness: against a single keypoint at the origin, a projection at
pixel distance `4.999` is accepted while one at exactly `5.0` is not. -/
theorem retrieve_pid_threshold_strict_witness :
    ((retrieve_pid [3] [((4999 : ℚ) / 1000, 0)] [((0 : ℚ), (0 : ℚ))]).2.1.getD 0 false = true)
    ∧ ((retrieve_pid [3] [((5 : ℚ), 0)] [((0 : ℚ), (0 : ℚ))]).2.1.getD 0 false = false) := by
  constructor
  · exact (retrieve_pid_threshold_strict [3] [((4999 : ℚ) / 1000, 0)] [((0 : ℚ), (0 : ℚ))]
      (by simp) 0 (by simp)).mpr ⟨((0 : ℚ), (0 : ℚ)), by simp, by norm_num [sqDist]⟩
  · norm_num [retrieve_pid, kdQuery, kdQueryAux, sqDist]

/-! Deduplication by keypoint index (`np.unique` with `return_index`). -/

lemma uniqueReturnIndex_nodup (arr : List ℕ) : (uniqueReturnIndex arr).1.Nodup :=
  (List.perm_insertionSort _ arr.dedup).nodup_iff.mpr (List.nodup_dedup arr)

lemma uniqueReturnIndex_mem (arr : List ℕ) (k : ℕ) :
    k ∈ (uniqueReturnIndex arr).1 ↔ k ∈ arr := by
  simp only [uniqueReturnIndex]
  rw [List.mem_insertionSort, List.mem_dedup]

lemma uniqueReturnIndex_snd (arr : List ℕ) :
    (uniqueReturnIndex arr).2 = (uniqueReturnIndex arr).1.map (fun v => firstOccurrence arr v) :=
  rfl

lemma dedupPairs_eq (sp mi : List ℕ) (ds : List Desc) :
    dedupPairs sp mi ds = List.zip ((uniqueReturnIndex mi).2.map (fun t => sp.getD t 0))
      ((uniqueReturnIndex mi).1.map (fun k => ds.getD k [])) := rfl

lemma firstOccurrence_spec (v : ℕ) : ∀ arr : List ℕ, v ∈ arr →
    firstOccurrence arr v < arr.length
    ∧ arr.getD (firstOccurrence arr v) (v + 1) = v
    ∧ ∀ t, t < firstOccurrence arr v → arr.getD t (v + 1) ≠ v := by
  intro arr
  induction arr with
  | nil => intro h; simp at h
  | cons a rest ih =>
    intro h
    by_cases ha : a = v
    · refine ⟨by simp [firstOccurrence, ha], by simp [firstOccurrence, ha], ?_⟩
      intro t ht
      simp [firstOccurrence, ha] at ht
    · have hv : v ∈ rest := by
        rcases List.mem_cons.mp h with h1 | h1
        · exact absurd h1.symm ha
        · exact h1
      obtain ⟨h1, h2, h3⟩ := ih hv
      have hfo : firstOccurrence (a :: rest) v = firstOccurrence rest v + 1 := by
        simp [firstOccurrence, ha]
      refine ⟨?_, ?_, ?_⟩
      · rw [hfo, List.length_cons]
        exact Nat.succ_lt_succ h1
      · rw [hfo, List.getD_cons_succ]
        exact h2
      · intro t ht
        rw [hfo] at ht
        cases t with
        | zero => simpa using ha
        | succ t2 =>
          rw [List.getD_cons_succ]
          exact h3 t2 (Nat.lt_of_succ_lt_succ ht)

/-- C7.  The unique keypoint-index array contains each accepted keypoint
index exactly once (so each keypoint contributes at most one pair), and for
each position `j` the recorded index is the FIRST occurrence of that
keypoint index in the traversal order of the masked nearest-neighbour index
array; the kept pair takes the pointId at that first position paired with
that keypoint's own descriptor. -/
theorem dedup_keeps_first_per_keypoint (selected_pid maskedInd : List ℕ)
    (descriptors : List Desc) :
    (uniqueReturnIndex maskedInd).1.Nodup
    ∧ (∀ k, k ∈ (uniqueReturnIndex maskedInd).1 ↔ k ∈ maskedInd)
    ∧ ∀ j, j < (uniqueReturnIndex maskedInd).1.length →
        (uniqueReturnIndex maskedInd).2.getD j 0
            = firstOccurrence maskedInd ((uniqueReturnIndex maskedInd).1.getD j 0)
        ∧ maskedInd.getD
            (firstOccurrence maskedInd ((uniqueReturnIndex maskedInd).1.getD j 0))
            ((uniqueReturnIndex maskedInd).1.getD j 0 + 1)
            = (uniqueReturnIndex maskedInd).1.getD j 0
        ∧ (∀ t, t < firstOccurrence maskedInd ((uniqueReturnIndex maskedInd).1.getD j 0) →
            maskedInd.getD t ((uniqueReturnIndex maskedInd).1.getD j 0 + 1)
              ≠ (uniqueReturnIndex maskedInd).1.getD j 0)
        ∧ (dedupPairs selected_pid maskedInd descriptors).getD j (0, [])
            = (selected_pid.getD
                (firstOccurrence maskedInd ((uniqueReturnIndex maskedInd).1.getD j 0)) 0,
               descriptors.getD ((uniqueReturnIndex maskedInd).1.getD j 0) []) := by
  refine ⟨uniqueReturnIndex_nodup maskedInd, fun k => uniqueReturnIndex_mem maskedInd k, ?_⟩
  intro j hj
  have hkmem : (uniqueReturnIndex maskedInd).1.getD j 0 ∈ maskedInd :=
    (uniqueReturnIndex_mem maskedInd _).mp (getD_mem_of_lt _ 0 j hj)
  obtain ⟨hlt, hat, hbefore⟩ := firstOccurrence_spec _ maskedInd hkmem
  have h21 : (uniqueReturnIndex maskedInd).2.getD j 0
      = firstOccurrence maskedInd ((uniqueReturnIndex maskedInd).1.getD j 0) := by
    rw [uniqueReturnIndex_snd,
      getD_map_lt (fun v => firstOccurrence maskedInd v) _ 0 0 j hj]
  refine ⟨h21, hat, hbefore, ?_⟩
  have hj2 : j < ((uniqueReturnIndex maskedInd).2.map (fun t => selected_pid.getD t 0)).length := by
    rw [List.length_map, uniqueReturnIndex_snd, List.length_map]
    exact hj
  have hj1 : j < ((uniqueReturnIndex maskedInd).1.map (fun k => descriptors.getD k [])).length := by
    rw [List.length_map]
    exact hj
  rw [dedupPairs_eq, getD_zip_lt _ _ 0 [] j hj2 hj1,
    getD_map_lt (fun t => selected_pid.getD t 0) _ 0 0 j
      (by rw [uniqueReturnIndex_snd, List.length_map]; exact hj),
    getD_map_lt (fun k => descriptors.getD k []) _ 0 [] j hj, h21]

/-- C7 witness at `selected_pid = [10,20,30]`, masked index array `[4,4,2]`:
the unique keypoint indices are `[2,4]` without duplicates, and for keypoint
`4` (position `j = 1`) the kept pair takes the pointId at the first
occurrence of `4` (position 0, pointId 10) and keypoint 4's descriptor. -/
theorem dedup_keeps_first_per_keypoint_witness :
    (uniqueReturnIndex [4, 4, 2]).1.Nodup
    ∧ ((uniqueReturnIndex [4, 4, 2]).2.getD 1 0
        = firstOccurrence [4, 4, 2] ((uniqueReturnIndex [4, 4, 2]).1.getD 1 0))
    ∧ (dedupPairs [10, 20, 30] [4, 4, 2] [[0], [1], [2], [3], [4]]).getD 1 (0, [])
        = ([10, 20, 30].getD
            (firstOccurrence [4, 4, 2] ((uniqueReturnIndex [4, 4, 2]).1.getD 1 0)) 0,
           [[0], [1], [2], [3], [4]].getD ((uniqueReturnIndex [4, 4, 2]).1.getD 1 0) []) := by
  have h := dedup_keeps_first_per_keypoint [10, 20, 30] [4, 4, 2] [[0], [1], [2], [3], [4]]
  have hj := h.2.2 1 (by decide)
  exact ⟨h.1, hj.1, hj.2.2.2⟩

end DD
